import Mathlib

/-!
Shallow embedding of the gitidy CLI (binary name "purgit"): src/main.rs,
src/git_utils.rs, src/io_utils.rs. The clean subcommand opens the repository,
fetches from "origin", enumerates all branches, ages each resolvable tip
commit against a freshly sampled clock value, filters the records strictly
older than the stale threshold, sorts them by age descending with a stable
sort, and prints a report unless quiet.

Machine integers are modelled as Nat with wrap-around taken mod 2^64 where
the source subtracts u64 values. The ambient clock is a function from call
index to seconds since the epoch: the i-th call to SystemTime::now made
during the scan returns clock i. Fallible actions are Except values.
-/

namespace Gitidy

/-- u64 wrapping subtraction: models the unchecked Rust subtraction
`now - commit_time` on u64 operands as compiled in release mode
(src/main.rs line 109). Both operands are u64 values, hence below 2^64. -/
def wrapSub (a b : Nat) : Nat := (a + 2 ^ 64 - b) % 2 ^ 64

/-- The age computation of src/main.rs line 109:
`Duration::from_secs(now - commit_time).as_secs() / 86400`
(Duration::from_secs composed with as_secs is the identity on seconds). -/
def ageOf (now commitTime : Nat) : Nat := wrapSub now commitTime / 86400

/-- git2 BranchType as matched in src/main.rs lines 100-103. -/
inductive BranchKind where
  | Local
  | Remote
deriving DecidableEq

/-- The string each branch kind is rendered as, src/main.rs lines 100-103. -/
def BranchKind.render : BranchKind → String
  | .Local => "local"
  | .Remote => "remote"

/-- One branch as the enumeration of src/main.rs lines 95-105 presents it to
the loop body: its (already name-substituted) name, its kind, and
`branch.get().target().and_then(find_commit)` composed with
`commit.time().seconds() as u64` — none when the tip does not resolve to a
commit object. -/
structure BranchInput where
  name : String
  kind : BranchKind
  commitTime : Option Nat
deriving DecidableEq

/-- The BranchDetails struct of src/main.rs lines 38-43. -/
structure BranchDetails where
  name : String
  kind : String
  age : Nat
deriving DecidableEq

/-- The clap default of the --stale flag, src/main.rs line 34. -/
def defaultStale : Nat := 30

/-- The scan loop of src/main.rs lines 97-116 in clean mode. `clock i` is the
value returned by the i-th call to `SystemTime::now()` made during the scan;
the source places that call inside the loop body, in the branch of the code
that runs only when the tip commit resolved, so the call counter advances
once per resolvable branch. A record is pushed only when `age > stale`. -/
def scanClean (stale : Nat) (clock : Nat → Nat) : Nat → List BranchInput → List BranchDetails
  | _, [] => []
  | i, ⟨_, _, none⟩ :: bs => scanClean stale clock i bs
  | i, ⟨n, k, some t⟩ :: bs =>
    if stale < ageOf (clock i) t then
      ⟨n, k.render, ageOf (clock i) t⟩ :: scanClean stale clock (i + 1) bs
    else
      scanClean stale clock (i + 1) bs

/-- The same loop with the staleness filter removed: one record for every
branch whose tip resolves, aged exactly as src/main.rs line 109 ages it. -/
def scanAll (clock : Nat → Nat) : Nat → List BranchInput → List BranchDetails
  | _, [] => []
  | i, ⟨_, _, none⟩ :: bs => scanAll clock i bs
  | i, ⟨n, k, some t⟩ :: bs =>
    ⟨n, k.render, ageOf (clock i) t⟩ :: scanAll clock (i + 1) bs

/-- Modelled from the spec invariant "age_days is computed once per scan using
a single now timestamp captured at scan time, applied uniformly to all
branches": the clean scan with one fixed `now`. Declared for comparison with
`scanClean`, which re-samples the clock per branch. -/
def scanCleanSingleNow (stale now : Nat) : List BranchInput → List BranchDetails
  | [] => []
  | ⟨_, _, none⟩ :: bs => scanCleanSingleNow stale now bs
  | ⟨n, k, some t⟩ :: bs =>
    if stale < ageOf now t then
      ⟨n, k.render, ageOf now t⟩ :: scanCleanSingleNow stale now bs
    else
      scanCleanSingleNow stale now bs

/-- The comparator of src/main.rs line 122, `|a, b| b.age.cmp(&a.age)`, read
as the "a sorts at or before b" relation a stable sort consumes: a may stay
before b exactly when the comparator does not answer Greater, i.e. when
`b.age ≤ a.age`. -/
def branchLE (a b : BranchDetails) : Bool := decide (b.age ≤ a.age)

/-- `branches.sort_by(|a, b| b.age.cmp(&a.age))` of src/main.rs line 122:
Rust's slice sort is a stable merge sort, embedded as the stable
`List.mergeSort` under `branchLE`. -/
def sortBranches (l : List BranchDetails) : List BranchDetails :=
  l.mergeSort branchLE

/-- The width computation of src/main.rs lines 124-128:
`branches.iter().map(|b| b.name.len()).max().unwrap_or(10)`. The iterator
max is none exactly when the record list is empty, so 10 is the value used
for an empty record set. -/
def maxNameLen (branches : List BranchDetails) : Nat :=
  ((branches.map fun b => b.name.length).max?).getD 10

/-- The name field rendering of src/main.rs line 133: the left-aligned
space-padded width$ format never truncates and pads the name with spaces up
to the requested width. -/
def padName (name : String) (width : Nat) : String :=
  name ++ String.mk (List.replicate (width - name.length) (Char.ofNat 32))

/-- The report of src/main.rs lines 130-141: unless quiet, a count summary
line followed by one line per record (colorization dropped). -/
def renderLines (quiet : Bool) (branches : List BranchDetails) : List String :=
  if quiet then []
  else
    ("Found " ++ toString branches.length ++ " stale branches.") ::
      branches.map fun b =>
        "* " ++ padName b.name (maxNameLen branches) ++ "    " ++ toString b.age ++ "d"

/-- The clean subcommand pipeline of src/main.rs lines 68-142, from the point
the repository is open: `fetch` is the outcome of git_utils::fetch_remote
(src/git_utils.rs lines 27-42); its error aborts the run through the ?
operator before any branch is scanned, making main return Err and the
process exit nonzero. On success the scan, the sort and the report run and
the printed lines are the result. -/
def runClean (fetch : Except String Unit) (stale : Nat) (clock : Nat → Nat)
    (branches : List BranchInput) (quiet : Bool) : Except String (List String) :=
  match fetch with
  | .error e => .error e
  | .ok _ => .ok (renderLines quiet (sortBranches (scanClean stale clock 0 branches)))

/-- Observable actions of a clean run, for the frame property: what the code
actually performs (fetch, per-branch reads, prints) next to the destructive
actions a deleting clean would perform (git2 Branch::delete, the
io_utils::confirm prompt), which this code never emits. -/
inductive Effect where
  | fetchRemote (remote : String)
  | readBranch (name : String)
  | printLine (line : String)
  | deleteBranch (name : String)
  | promptUser (message : String)
deriving DecidableEq

/-- The clean subcommand of src/main.rs lines 68-142 as an effect trace plus
the branch set the run leaves behind. The yes flag is bound by the match on
Commands::Clean (src/main.rs line 69) but never read afterwards; the run
reads every enumerated branch (the debug! line runs per branch), prints the
report unless quiet, and returns the branch set unchanged: the source
contains no call to any branch-deleting or prompting routine. -/
def runCleanTrace (fetch : Except String Unit) (stale : Nat) (clock : Nat → Nat)
    (branches : List BranchInput) (yes quiet : Bool) :
    Except String (List Effect × List BranchInput) :=
  match fetch with
  | .error e => .error e
  | .ok _ =>
    .ok (Effect.fetchRemote "origin" ::
      (branches.map fun b => Effect.readBranch b.name) ++
        (renderLines quiet (sortBranches (scanClean stale clock 0 branches))).map
          Effect.printLine,
      branches)

/-- Path::parent on a canonical path modelled as its component list: drops
the final component; none for the root path, whose component list is empty
(src/git_utils.rs line 10). -/
def pathParent (p : List String) : Option (List String) :=
  match p with
  | [] => none
  | _ => some p.dropLast

/-- Path::file_name on a canonical path modelled as its component list: the
final component, none when there is none (src/git_utils.rs line 11). -/
def pathFileName (p : List String) : Option String :=
  p.getLast?

/-- resolve_name of src/git_utils.rs lines 6-16. `canonical` is the result of
`repo.path().canonicalize()`, error when canonicalization fails; the ?
operator propagates that error. Otherwise parent and file_name decompose the
path and `.ok_or(...)?` turns a failed decomposition into the error string
"Could not determine repository name". -/
def resolve_name (canonical : Except String (List String)) : Except String String :=
  match canonical with
  | .error e => .error e
  | .ok repoPath =>
    match (pathParent repoPath).bind pathFileName with
    | some repoRoot => .ok repoRoot
    | none => .error "Could not determine repository name"

theorem wrapSub_of_le {a b : Nat} (h1 : b ≤ a) (h2 : a < 2 ^ 64) :
    wrapSub a b = a - b := by
  unfold wrapSub
  have h3 : a + 2 ^ 64 - b = (a - b) + 2 ^ 64 := by omega
  rw [h3, Nat.add_mod_right]
  exact Nat.mod_eq_of_lt (by omega)

/-- C1: for a branch whose tip commit resolves and whose commit timestamp is
at most the sampled now, the computed age is floor((now - commit_time)/86400),
and with the commit time fixed the age is monotonically non-decreasing in
now (both timestamps being u64 values, hence below 2^64). -/
theorem age_floor_monotone (now t : Nat) (h1 : t ≤ now) (h2 : now < 2 ^ 64) :
    ageOf now t = (now - t) / 86400 ∧
      ∀ now', now ≤ now' → now' < 2 ^ 64 → ageOf now t ≤ ageOf now' t := by
  constructor
  · rw [ageOf, wrapSub_of_le h1 h2]
  · intro now' hle h64
    rw [ageOf, ageOf, wrapSub_of_le h1 h2, wrapSub_of_le (le_trans h1 hle) h64]
    exact Nat.div_le_div_right (Nat.sub_le_sub_right hle t)

/-- C1 witness: the floor formula and monotonicity at now = 1700000000,
commit time = 1690000000. -/
theorem age_floor_monotone_check :
    ageOf 1700000000 1690000000 = (1700000000 - 1690000000) / 86400 ∧
      ∀ now', 1700000000 ≤ now' → now' < 2 ^ 64 →
        ageOf 1700000000 1690000000 ≤ ageOf now' 1690000000 :=
  age_floor_monotone 1700000000 1690000000 (by norm_num) (by norm_num)

/-- C2: the code does not clamp a future-dated commit. With now = 100 and
commit time = 200 the wrapping u64 subtraction makes the age the huge value
(2^64 - 100) / 86400 = 213503982334601 rather than 0, and a branch with such
a tip is reported with that age. -/
theorem future_commit_age_wraps :
    ageOf 100 200 = 213503982334601 ∧ ageOf 100 200 ≠ 0 ∧
      scanClean 30 (fun _ => 100) 0 [⟨"f", .Local, some 200⟩] =
        [⟨"f", "local", 213503982334601⟩] := by
  refine ⟨by decide, by decide, by decide⟩

/-- C3 counterexample: the claim that one "now" is used for every branch of a
scan fails on the code. With a clock that advances between the two loop
iterations (432000 then 864000) and two branches whose tips both resolve to
commit time 0, the scan ages them to 5 and 10 days; no single-now scan
produces that output, since a single now gives equal commit times equal
ages. -/
theorem scan_single_now_counterexample :
    scanClean 0 (fun i => 432000 * (i + 1)) 0
        [⟨"a", .Local, some 0⟩, ⟨"b", .Local, some 0⟩] =
      [⟨"a", "local", 5⟩, ⟨"b", "local", 10⟩] ∧
    ¬ ∃ now, scanClean 0 (fun i => 432000 * (i + 1)) 0
        [⟨"a", .Local, some 0⟩, ⟨"b", .Local, some 0⟩] =
      scanCleanSingleNow 0 now [⟨"a", .Local, some 0⟩, ⟨"b", .Local, some 0⟩] := by
  have hL : scanClean 0 (fun i => 432000 * (i + 1)) 0
      [⟨"a", .Local, some 0⟩, ⟨"b", .Local, some 0⟩] =
      [⟨"a", "local", 5⟩, ⟨"b", "local", 10⟩] := by decide
  refine ⟨hL, ?_⟩
  rintro ⟨now, h⟩
  rw [hL] at h
  by_cases h0 : 0 < ageOf now 0
  · simp only [scanCleanSingleNow, if_pos h0, BranchKind.render, List.cons.injEq,
      BranchDetails.mk.injEq] at h
    omega
  · simp only [scanCleanSingleNow, if_neg h0] at h
    exact List.cons_ne_nil _ _ h

/-- C3 amended: the code samples SystemTime::now afresh inside the loop, once
per branch with a resolvable tip, so branches of one scan may be aged against
different now values; when the clock does not advance during the scan the
result coincides with the single-now scan of the spec. -/
theorem per_branch_now_constant_clock (stale now i : Nat) (bs : List BranchInput) :
    scanClean stale (fun _ => now) i bs = scanCleanSingleNow stale now bs := by
  induction bs generalizing i with
  | nil => rfl
  | cons b bs ih =>
    obtain ⟨n, k, ct⟩ := b
    cases ct with
    | none => simpa only [scanClean, scanCleanSingleNow] using ih i
    | some t => simp only [scanClean, scanCleanSingleNow, ih]

/-- C4: in clean mode a record appears in the stale set exactly when its age
is strictly greater than the stale threshold (whose clap default is 30): the
clean scan contains a record exactly when the unfiltered scan produces it and
its age exceeds the threshold, so a branch aged exactly the threshold is
excluded. -/
theorem stale_filter_strict (stale : Nat) (clock : Nat → Nat) (i : Nat)
    (bs : List BranchInput) (r : BranchDetails) :
    defaultStale = 30 ∧
      (r ∈ scanClean stale clock i bs ↔ r ∈ scanAll clock i bs ∧ stale < r.age) := by
  refine ⟨rfl, ?_⟩
  induction bs generalizing i with
  | nil => simp [scanClean, scanAll]
  | cons b bs ih =>
    obtain ⟨n, k, ct⟩ := b
    cases ct with
    | none => simpa only [scanClean, scanAll] using ih i
    | some t =>
      by_cases hc : stale < ageOf (clock i) t
      · simp only [scanClean, scanAll, if_pos hc, List.mem_cons]
        constructor
        · rintro (rfl | hr)
          · exact ⟨Or.inl rfl, hc⟩
          · obtain ⟨h1, h2⟩ := (ih (i + 1)).mp hr
            exact ⟨Or.inr h1, h2⟩
        · rintro ⟨rfl | h1, h2⟩
          · exact Or.inl rfl
          · exact Or.inr ((ih (i + 1)).mpr ⟨h1, h2⟩)
      · simp only [scanClean, scanAll, if_neg hc, List.mem_cons]
        rw [ih (i + 1)]
        constructor
        · rintro ⟨h1, h2⟩
          exact ⟨Or.inr h1, h2⟩
        · rintro ⟨rfl | h1, h2⟩
          · exact absurd h2 hc
          · exact ⟨h1, h2⟩

theorem scanClean_skip_none (stale : Nat) (clock : Nat → Nat) (n : String)
    (k : BranchKind) (xs ys : List BranchInput) :
    ∀ i, scanClean stale clock i (xs ++ ⟨n, k, none⟩ :: ys) =
      scanClean stale clock i (xs ++ ys) := by
  induction xs with
  | nil => intro i; rfl
  | cons x xs ih =>
    intro i
    obtain ⟨m, k', ct⟩ := x
    cases ct with
    | none => simpa only [List.cons_append, scanClean] using ih i
    | some t =>
      simp only [List.cons_append, scanClean, List.append_eq, ih]

/-- C7: a branch whose tip does not resolve to a commit is silently excluded:
the scan of a branch list containing it equals the scan with it removed (so
it is in no output and never counted), and the whole clean run — a total
function, with no error arising from the branch — prints the same lines with
or without it. -/
theorem unresolvable_tip_skipped (stale : Nat) (clock : Nat → Nat) (i : Nat)
    (n : String) (k : BranchKind) (xs ys : List BranchInput) :
    scanClean stale clock i (xs ++ ⟨n, k, none⟩ :: ys) =
        scanClean stale clock i (xs ++ ys) ∧
      ∀ fetch quiet, runClean fetch stale clock (xs ++ ⟨n, k, none⟩ :: ys) quiet =
        runClean fetch stale clock (xs ++ ys) quiet := by
  refine ⟨scanClean_skip_none stale clock n k xs ys i, ?_⟩
  intro fetch quiet
  cases fetch with
  | error e => rfl
  | ok u => simp only [runClean, scanClean_skip_none]

/-- C8: when the fetch fails, the whole run aborts with that error before any
branch is scanned: the result is the fetch error whatever the branch data and
flags are (so no record, table or summary line is produced), and is never a
success. -/
theorem fetch_failure_aborts (e : String) (stale : Nat) (clock : Nat → Nat)
    (branches branches' : List BranchInput) (quiet quiet' : Bool) :
    runClean (.error e) stale clock branches quiet = .error e ∧
      runClean (.error e) stale clock branches quiet =
        runClean (.error e) stale clock branches' quiet' ∧
      ∀ lines, runClean (.error e) stale clock branches quiet ≠ .ok lines := by
  exact ⟨rfl, rfl, fun lines h => by exact Except.noConfusion h⟩

theorem branchLE_trans : ∀ a b c : BranchDetails,
    branchLE a b = true → branchLE b c = true → branchLE a c = true := by
  intro a b c hab hbc
  simp only [branchLE, decide_eq_true_eq] at *
  omega

theorem branchLE_total : ∀ a b : BranchDetails,
    (branchLE a b || branchLE b a) = true := by
  intro a b
  simp only [branchLE, Bool.or_eq_true, decide_eq_true_eq]
  omega

theorem filter_age_sortBranches (v : Nat) (l : List BranchDetails) :
    (sortBranches l).filter (fun b => b.age == v) =
      l.filter (fun b => b.age == v) := by
  induction l with
  | nil => simp [sortBranches]
  | cons a l ih =>
    obtain ⟨l₁, l₂, e1, e2, h3⟩ := List.mergeSort_cons branchLE_trans branchLE_total a l
    unfold sortBranches at *
    have key : l₁.filter (fun b => b.age == v) ++ l₂.filter (fun b => b.age == v) =
        l.filter (fun b => b.age == v) := by
      rw [← List.filter_append, ← e2]
      exact ih
    rw [e1, List.filter_append, List.filter_cons]
    by_cases hv : a.age = v
    · have hnil : l₁.filter (fun b => b.age == v) = [] := by
        rw [List.filter_eq_nil_iff]
        intro b hb
        have h4 := h3 b hb
        simp only [branchLE, Bool.not_eq_eq_eq_not, Bool.not_true, decide_eq_false_iff_not] at h4
        simp only [beq_iff_eq]
        omega
      rw [hnil] at key ⊢
      simp only [List.nil_append] at key ⊢
      simp only [beq_iff_eq, hv, if_pos]
      rw [key, List.filter_cons, if_pos (by simp [hv])]
    · simp only [beq_iff_eq, hv, if_neg, ite_false]
      rw [key, List.filter_cons, if_neg (by simp [hv])]

/-- C5: sorting the records by age descending (src/main.rs line 122) is
idempotent, stable — for every age value the records of that age appear in
the sorted output exactly in their original scan order — and the output is
pairwise descending: each record's age is at least the age of every record
after it. -/
theorem sort_desc_idempotent_stable (l : List BranchDetails) :
    sortBranches (sortBranches l) = sortBranches l ∧
      (∀ v : Nat, (sortBranches l).filter (fun b => b.age == v) =
        l.filter (fun b => b.age == v)) ∧
      (sortBranches l).Pairwise fun a b => b.age ≤ a.age := by
  refine ⟨?_, fun v => filter_age_sortBranches v l, ?_⟩
  · exact List.mergeSort_of_sorted (List.sorted_mergeSort branchLE_trans branchLE_total l)
  · have hp := List.sorted_mergeSort branchLE_trans branchLE_total l
    exact hp.imp fun h => by simpa only [branchLE, decide_eq_true_eq] using h

/-- C6 counterexample: with the single record named "ab" the computed column
width is 2, not at least 10: the unwrap_or(10) of src/main.rs line 128 is the
value for an empty record set, not a floor. -/
theorem name_width_floor_counterexample :
    maxNameLen [⟨"ab", "local", 40⟩] = 2 ∧
      ¬ 10 ≤ maxNameLen [⟨"ab", "local", 40⟩] := by
  refine ⟨rfl, by decide⟩

theorem padName_length (name : String) (width : Nat) :
    (padName name width).length = max name.length width := by
  have h : (padName name width).length = name.length + (width - name.length) := by
    simp [padName]
  omega

/-- C6 amended: for a nonempty record set the name column width is exactly
the maximum name length over the records — with no floor, so widths below 10
occur — and every rendered name field has exactly that width; 10 is only the
width used for an empty record set. -/
theorem name_width_amended (branches : List BranchDetails) (h : branches ≠ []) :
    (∃ b ∈ branches, b.name.length = maxNameLen branches) ∧
      (∀ b ∈ branches, b.name.length ≤ maxNameLen branches) ∧
      (∀ b ∈ branches, (padName b.name (maxNameLen branches)).length =
        maxNameLen branches) ∧
      maxNameLen ([] : List BranchDetails) = 10 := by
  obtain ⟨m, hm⟩ : ∃ m, (branches.map fun b => b.name.length).max? = some m := by
    cases hmx : (branches.map fun b => b.name.length).max? with
    | none =>
      rw [List.max?_eq_none_iff, List.map_eq_nil_iff] at hmx
      exact absurd hmx h
    | some m => exact ⟨m, rfl⟩
  have hchar := (List.max?_eq_some_iff (fun a => Nat.le_refl a)
    (fun a b => by omega) (fun a b c => by omega)).mp hm
  obtain ⟨hmem, hub⟩ := hchar
  have hlen : maxNameLen branches = m := by
    rw [maxNameLen, hm, Option.getD_some]
  obtain ⟨b, hb, hbl⟩ := List.mem_map.mp hmem
  have hub' : ∀ b ∈ branches, b.name.length ≤ maxNameLen branches := by
    intro b' hb'
    rw [hlen]
    exact hub _ (List.mem_map_of_mem _ hb')
  refine ⟨⟨b, hb, by rw [hlen, hbl]⟩, hub', ?_, rfl⟩
  intro b' hb'
  rw [padName_length]
  exact Nat.max_eq_right (hub' b' hb')

/-- C6 amended, applied: with the single record named "ab" the width is the
(unique) name length 2, every name length is at most 2, the rendered field
has width exactly 2, and the empty record set gets width 10. -/
theorem name_width_amended_check :
    (∃ b ∈ [(⟨"ab", "local", 40⟩ : BranchDetails)],
        b.name.length = maxNameLen [⟨"ab", "local", 40⟩]) ∧
      (∀ b ∈ [(⟨"ab", "local", 40⟩ : BranchDetails)],
        b.name.length ≤ maxNameLen [⟨"ab", "local", 40⟩]) ∧
      (∀ b ∈ [(⟨"ab", "local", 40⟩ : BranchDetails)],
        (padName b.name (maxNameLen [⟨"ab", "local", 40⟩])).length =
          maxNameLen [⟨"ab", "local", 40⟩]) ∧
      maxNameLen ([] : List BranchDetails) = 10 :=
  name_width_amended [⟨"ab", "local", 40⟩] (List.cons_ne_nil _ _)

/-- C9 counterexample: resolve_name propagates a canonicalization failure as
that very error — never as the string "Unknown" — and turns a failed path
decomposition (a one-component path) into the error "Could not determine
repository name", again not "Unknown": no such fallback exists in the code. -/
theorem resolve_name_counterexample :
    resolve_name (.error "permission denied") = .error "permission denied" ∧
      resolve_name (.error "permission denied") ≠ .ok "Unknown" ∧
      resolve_name (.ok ["myrepo"]) = .error "Could not determine repository name" ∧
      resolve_name (.ok ["myrepo"]) ≠ .ok "Unknown" := by
  refine ⟨rfl, fun h => Except.noConfusion h, rfl, fun h => Except.noConfusion h⟩

/-- C9 amended: resolve_name propagates a canonicalization failure through
the ? operator as that error, returns the error "Could not determine
repository name" when the canonical path has too few components for the
parent/file-name decomposition, and otherwise returns the name of the parent
directory of the repository metadata path; it never falls back to a literal
"Unknown" — the fallback the spec describes does not exist in the code. -/
theorem resolve_name_amended :
    (∀ e, resolve_name (.error e) = .error e) ∧
      (∀ p : List String, p.length ≤ 1 →
        resolve_name (.ok p) = .error "Could not determine repository name") ∧
      (∀ p : List String, 2 ≤ p.length →
        ∃ root, resolve_name (.ok p) = .ok root ∧ p.dropLast.getLast? = some root) := by
  refine ⟨fun e => rfl, ?_, ?_⟩
  · intro p hp
    match p with
    | [] => rfl
    | [x] => rfl
    | x :: y :: rest => simp at hp
  · intro p hp
    match p with
    | x :: y :: rest =>
      have hne : (x :: y :: rest).dropLast ≠ [] := by
        simp [List.dropLast]
      obtain ⟨root, hroot⟩ : ∃ r, (x :: y :: rest).dropLast.getLast? = some r := by
        cases hg : (x :: y :: rest).dropLast.getLast? with
        | none => exact absurd (List.getLast?_eq_none_iff.mp hg) hne
        | some r => exact ⟨r, rfl⟩
      refine ⟨root, ?_, hroot⟩
      simp only [resolve_name, pathParent, pathFileName, Option.some_bind]
      rw [hroot]

/-- C9 amended, applied: a failed canonicalization surfaces as its own error,
a one-component path surfaces as the decomposition error, and the canonical
metadata path home/user/myrepo/.git resolves to some parent directory name
(namely the last component of its dropLast). -/
theorem resolve_name_amended_check :
    resolve_name (.error "permission denied") = .error "permission denied" ∧
      resolve_name (.ok ["myrepo"]) = .error "Could not determine repository name" ∧
      ∃ root, resolve_name (.ok ["home", "user", "myrepo", ".git"]) = .ok root ∧
        (["home", "user", "myrepo", ".git"] : List String).dropLast.getLast? = some root :=
  ⟨resolve_name_amended.1 "permission denied",
    resolve_name_amended.2.1 ["myrepo"] (by simp),
    resolve_name_amended.2.2 ["home", "user", "myrepo", ".git"] (by simp)⟩

/-- C10: a successful clean run leaves the branch set exactly as the fetch
left it and its trace holds no branch deletion and no confirmation prompt,
whatever the yes, quiet and stale arguments are; the yes flag does not change
the run at all. The clean subcommand only fetches, reads and prints. -/
theorem clean_never_deletes (fetch : Except String Unit) (stale : Nat)
    (clock : Nat → Nat) (branches : List BranchInput) (yes quiet : Bool)
    (trace : List Effect) (final : List BranchInput)
    (h : runCleanTrace fetch stale clock branches yes quiet = .ok (trace, final)) :
    final = branches ∧
      (∀ e ∈ trace, (∀ n, e ≠ .deleteBranch n) ∧ (∀ m, e ≠ .promptUser m)) ∧
      ∀ yes' : Bool, runCleanTrace fetch stale clock branches yes' quiet =
        runCleanTrace fetch stale clock branches yes quiet := by
  cases fetch with
  | error e => exact absurd h (fun h => Except.noConfusion h)
  | ok u =>
    simp only [runCleanTrace, Except.ok.injEq, Prod.mk.injEq] at h
    obtain ⟨ht, hf⟩ := h
    refine ⟨hf.symm, ?_, fun yes' => rfl⟩
    intro e he
    rw [← ht] at he
    simp only [List.mem_cons, List.mem_append, List.mem_map] at he
    rcases he with (rfl | ⟨b, _, rfl⟩) | ⟨s, _, rfl⟩ <;>
      exact ⟨fun n h => Effect.noConfusion h, fun m h => Effect.noConfusion h⟩

/-- C10 applied: the successful clean run on an empty branch set (stale 30,
quiet false, yes false) leaves the branch set empty, produces only the fetch
effect and the summary print, and is unchanged by the yes flag. -/
theorem clean_never_deletes_check :
    ([] : List BranchInput) = [] ∧
      (∀ e ∈ [Effect.fetchRemote "origin", Effect.printLine "Found 0 stale branches."],
        (∀ n, e ≠ .deleteBranch n) ∧ (∀ m, e ≠ .promptUser m)) ∧
      ∀ yes' : Bool, runCleanTrace (.ok ()) 30 (fun _ => 0) [] yes' false =
        runCleanTrace (.ok ()) 30 (fun _ => 0) [] false false :=
  clean_never_deletes (.ok ()) 30 (fun _ => 0) [] false false
    [Effect.fetchRemote "origin", Effect.printLine "Found 0 stale branches."] []
    (by simp only [runCleanTrace, renderLines, sortBranches, scanClean,
      List.mergeSort_nil, Bool.false_eq_true, if_false, List.map_nil, List.map_cons,
      List.nil_append, List.length_nil]
        rfl)

end Gitidy
